import Mathlib

/-!
Verification of the `decimal` crate (`src/decimal/src/lib.rs`): a fixed-point
decimal number type with an `i64` unscaled value and a `u32` scale.

The embedding models the crate as compiled with overflow checks enabled, which
is the semantics the crate's own test suite pins down (its tests assert that
overflowing operations panic with "arithmetic operation overflowed").  Every
machine-integer arithmetic step is therefore modelled as a checked operation on
unbounded `Int` / `Nat` with an explicit range test; `none` models a panic.
-/

namespace DecimalRs

/-- Smallest `i64` value, `-2^63`. -/
def i64Min : Int := -(2 ^ 63)

/-- Largest `i64` value, `2^63 - 1`. -/
def i64Max : Int := 2 ^ 63 - 1

/-- Largest `u32` value, `2^32 - 1`. -/
def u32Max : Nat := 2 ^ 32 - 1

/-- `n` is representable as an `i64`. -/
def inI64 (n : Int) : Prop := i64Min ≤ n ∧ n ≤ i64Max

instance inI64.dec (n : Int) : Decidable (inI64 n) := by
  unfold inI64; exact inferInstance

/-- Checked `i64` addition: Rust's `+` with overflow checks; `none` is a panic. -/
def chkAdd (a b : Int) : Option Int :=
  if inI64 (a + b) then some (a + b) else none

/-- Checked `i64` subtraction: Rust's `-` with overflow checks; `none` is a panic. -/
def chkSub (a b : Int) : Option Int :=
  if inI64 (a - b) then some (a - b) else none

/-- Checked `i64` multiplication: Rust's `*` with overflow checks; `none` is a panic. -/
def chkMul (a b : Int) : Option Int :=
  if inI64 (a * b) then some (a * b) else none

/-- Checked `i64` negation: Rust's unary `-` with overflow checks; `none` is a panic. -/
def chkNeg (a : Int) : Option Int :=
  if inI64 (-a) then some (-a) else none

/-- Checked `u32` addition (used for the `scale` and `index` counters). -/
def chkU32Add (a b : Nat) : Option Nat :=
  if a + b ≤ u32Max then some (a + b) else none

/-- Checked `i64` division: Rust's `/`, which (in every build mode) panics on a
zero divisor and on the one overflowing pair `i64::MIN / -1`; truncates toward
zero otherwise (`Int.tdiv`). -/
def chkDiv (n d : Int) : Option Int :=
  if d = 0 then none
  else if n = i64Min ∧ d = -1 then none
  else some (n.tdiv d)

/-- Checked `i64` remainder: Rust's `%`, which panics on a zero divisor and on
the overflowing pair `i64::MIN % -1`; otherwise the truncated-division
remainder (`Int.tmod`, sign of the dividend). -/
def chkRem (n d : Int) : Option Int :=
  if d = 0 then none
  else if n = i64Min ∧ d = -1 then none
  else some (n.tmod d)

/-- Three-way comparison on `u32` values, modelling Rust's `u32::cmp`. -/
def natCmp (a b : Nat) : Ordering :=
  if a < b then .lt else if a = b then .eq else .gt

/-- Three-way comparison on `i64` values, modelling Rust's `i64::cmp`. -/
def i64cmp (a b : Int) : Ordering :=
  if a < b then .lt else if a = b then .eq else .gt

/-- `pub struct Decimal { pub unscaled: i64, pub scale: u32 }`. -/
structure Decimal where
  unscaled : Int
  scale : Nat
deriving DecidableEq

/-- `Decimal::new(unscaled, scale)`. -/
def Decimal.new (unscaled : Int) (scale : Nat) : Decimal :=
  ⟨unscaled, scale⟩

/-- The struct's fields fit their Rust machine-integer types. -/
def Decimal.Repr (d : Decimal) : Prop :=
  inI64 d.unscaled ∧ d.scale ≤ u32Max

instance Decimal.Repr.dec (d : Decimal) : Decidable d.Repr := by
  unfold Decimal.Repr; exact inferInstance

/-- `fn downscale(n: &i64, down_by: u32) -> i64`: the loop
`for _ in 0..down_by { result = result / 10 }`. Dividing by 10 can never
overflow or divide by zero, so no check is needed. -/
def downscale (n : Int) : Nat → Int
  | 0 => n
  | k + 1 => (downscale n k).tdiv 10

/-- `fn upscale(n: &i64, up_by: u32) -> i64`: the loop
`for _ in 0..up_by { result = result * 10 }`, each multiplication checked. -/
def upscale (n : Int) : Nat → Option Int
  | 0 => some n
  | k + 1 =>
    match upscale n k with
    | none => none
    | some r => chkMul r 10

/-- `Decimal::adjust_scale`: match on `self.scale.cmp(&new_scale)`; equal
returns a copy, greater downscales, less upscales (which may overflow). -/
def Decimal.adjust_scale (d : Decimal) (new_scale : Nat) : Option Decimal :=
  match natCmp d.scale new_scale with
  | .eq => some d
  | .gt => some ⟨downscale d.unscaled (d.scale - new_scale), new_scale⟩
  | .lt =>
    match upscale d.unscaled (new_scale - d.scale) with
    | none => none
    | some v => some ⟨v, new_scale⟩

theorem natCmp_lt_iff {a b : Nat} : natCmp a b = .lt ↔ a < b := by
  unfold natCmp
  split
  · simp [*]
  · split <;> simp <;> omega

theorem natCmp_eq_iff {a b : Nat} : natCmp a b = .eq ↔ a = b := by
  unfold natCmp
  split
  · simp; omega
  · split <;> simp <;> omega

theorem natCmp_gt_iff {a b : Nat} : natCmp a b = .gt ↔ b < a := by
  unfold natCmp
  split
  · simp; omega
  · split <;> simp <;> omega

theorem adjust_scale_scale {d : Decimal} {t : Nat} {r : Decimal}
    (h : d.adjust_scale t = some r) : r.scale = t := by
  unfold Decimal.adjust_scale at h
  split at h
  next heq =>
    simp only [Option.some.injEq] at h
    subst h
    exact natCmp_eq_iff.mp heq
  next heq =>
    simp only [Option.some.injEq] at h
    subst h
    rfl
  next heq =>
    split at h
    · exact absurd h (by simp)
    · simp only [Option.some.injEq] at h
      subst h
      rfl

theorem adjust_scale_self (d : Decimal) : d.adjust_scale d.scale = some d := by
  unfold Decimal.adjust_scale
  rw [show natCmp d.scale d.scale = .eq from natCmp_eq_iff.mpr rfl]

/-- `impl ops::Add for Decimal`: match on `self.scale.cmp(&other.scale)`; on
equal scales add the unscaled values (checked), otherwise upscale the
smaller-scale operand via `adjust_scale` and recurse. -/
def Decimal.add (a other : Decimal) : Option Decimal :=
  match hc : natCmp a.scale other.scale with
  | .eq =>
    match chkAdd a.unscaled other.unscaled with
    | none => none
    | some u => some ⟨u, a.scale⟩
  | .lt =>
    match h : a.adjust_scale other.scale with
    | none => none
    | some s => Decimal.add s other
  | .gt =>
    match h : other.adjust_scale a.scale with
    | none => none
    | some o => Decimal.add a o
termination_by (if a.scale = other.scale then 0 else 1)
decreasing_by
  · have hs := adjust_scale_scale h
    have hne : a.scale ≠ other.scale := Nat.ne_of_lt (natCmp_lt_iff.mp hc)
    simp [hs, hne]
  · have hs := adjust_scale_scale h
    have hne : a.scale ≠ other.scale := Nat.ne_of_gt (natCmp_gt_iff.mp hc)
    simp [hs, hne]

/-- `impl ops::Sub for Decimal`: same alignment protocol as `Add`, with checked
subtraction of the unscaled values once the scales agree. -/
def Decimal.sub (a other : Decimal) : Option Decimal :=
  match hc : natCmp a.scale other.scale with
  | .eq =>
    match chkSub a.unscaled other.unscaled with
    | none => none
    | some u => some ⟨u, a.scale⟩
  | .lt =>
    match h : a.adjust_scale other.scale with
    | none => none
    | some s => Decimal.sub s other
  | .gt =>
    match h : other.adjust_scale a.scale with
    | none => none
    | some o => Decimal.sub a o
termination_by (if a.scale = other.scale then 0 else 1)
decreasing_by
  · have hs := adjust_scale_scale h
    have hne : a.scale ≠ other.scale := Nat.ne_of_lt (natCmp_lt_iff.mp hc)
    simp [hs, hne]
  · have hs := adjust_scale_scale h
    have hne : a.scale ≠ other.scale := Nat.ne_of_gt (natCmp_gt_iff.mp hc)
    simp [hs, hne]

/-- `impl ops::Mul for Decimal`:
`Decimal::new(self.unscaled * other.unscaled, self.scale + other.scale)`, the
unscaled product and the scale sum both overflow-checked. -/
def Decimal.mul (a other : Decimal) : Option Decimal :=
  match chkMul a.unscaled other.unscaled with
  | none => none
  | some u =>
    match chkU32Add a.scale other.scale with
    | none => none
    | some s => some ⟨u, s⟩

/-- `impl ops::Div for Decimal`: upscale the dividend to the divisor's scale
when the divisor's scale is larger, then
`Decimal::new(s.unscaled / other.unscaled, s.scale - other.scale)`. -/
def Decimal.div (a other : Decimal) : Option Decimal :=
  match (if other.scale > a.scale then a.adjust_scale other.scale else some a) with
  | none => none
  | some s =>
    match chkDiv s.unscaled other.unscaled with
    | none => none
    | some q => some ⟨q, s.scale - other.scale⟩

/-- `impl ops::Rem for Decimal`: same dividend alignment as `Div`, then
`Decimal::new(s.unscaled % other.unscaled, s.scale)` — the result keeps the
aligned dividend's scale. -/
def Decimal.rem (a other : Decimal) : Option Decimal :=
  match (if other.scale > a.scale then a.adjust_scale other.scale else some a) with
  | none => none
  | some s =>
    match chkRem s.unscaled other.unscaled with
    | none => none
    | some r => some ⟨r, s.scale⟩

/-- `impl PartialOrd for Decimal`: always wraps an `Ordering` in `Some`,
comparing unscaled values after upscaling the smaller-scale operand.  The
outer `Option` of the model is the panic that `upscale` may raise; the inner
`Option Ordering` is the Rust function's return type. -/
def Decimal.partialCmp (a other : Decimal) : Option (Option Ordering) :=
  match natCmp a.scale other.scale with
  | .eq => some (some (i64cmp a.unscaled other.unscaled))
  | .gt =>
    match upscale other.unscaled (a.scale - other.scale) with
    | none => none
    | some v => some (some (i64cmp a.unscaled v))
  | .lt =>
    match upscale a.unscaled (other.scale - a.scale) with
    | none => none
    | some v => some (some (i64cmp v other.unscaled))

/-- The character for a single decimal digit `d < 10` (`'0'..'9'`). -/
def digitChar (d : Nat) : Char := Char.ofNat (48 + d)

/-- Most-significant-first decimal digit characters of `n`, with `fuel` bounding
the recursion depth (structural recursion so that concrete values reduce). -/
def natDigitsF : Nat → Nat → List Char
  | 0, _ => []
  | f + 1, n =>
    if n < 10 then [digitChar n]
    else natDigitsF f (n / 10) ++ [digitChar (n % 10)]

/-- Models the decimal digit string `format!("{}", n)` of a nonnegative
integer: most-significant digit first, `"0"` for zero, no sign. -/
def natDigits (n : Nat) : List Char := natDigitsF (n + 1) n

/-- Models `format!("{}", n)` for an `i64` value: a `'-'` followed by the
magnitude's digits when negative, the digits alone otherwise. -/
def fmtInt (n : Int) : List Char :=
  if n < 0 then '-' :: natDigits n.natAbs else natDigits n.toNat

/-- `impl fmt::Display for Decimal`.  Scale `0` renders the unscaled value
as-is.  Otherwise the sign is emitted first (the `'-'` is removed from the
digit string), then either `"0."` plus zero padding plus the digits (when
`scale >= unscaled_len`) or the digits with a `'.'` inserted at byte position
`unscaled_len - scale`. -/
def Decimal.render (d : Decimal) : List Char :=
  if d.scale = 0 then fmtInt d.unscaled
  else
    (if d.unscaled < 0 then ['-'] else []) ++
      (if d.scale ≥ (natDigits d.unscaled.natAbs).length then
        '0' :: '.' ::
          (List.replicate (d.scale - (natDigits d.unscaled.natAbs).length) '0'
            ++ natDigits d.unscaled.natAbs)
      else
        (natDigits d.unscaled.natAbs).take
            ((natDigits d.unscaled.natAbs).length - d.scale)
          ++ '.' :: (natDigits d.unscaled.natAbs).drop
              ((natDigits d.unscaled.natAbs).length - d.scale))

/-- `enum DecimalErrorKind { Empty, InvalidDigit }`. -/
inductive DecimalErrorKind where
  | Empty
  | InvalidDigit
deriving DecidableEq

/-- `pub struct ParseDecimalError { kind: DecimalErrorKind }`. -/
structure ParseDecimalError where
  kind : DecimalErrorKind
deriving DecidableEq

/-- The parser's loop state: the local variables of `from_str`. -/
structure ParseSt where
  unscaled : Int
  scale : Nat
  index : Nat
  negative : Bool
  seen_decimal : Bool
deriving DecidableEq

/-- The parser's initial state: all accumulators zero, flags false. -/
def initSt : ParseSt := ⟨0, 0, 0, false, false⟩

/-- Models `c.to_digit(10).unwrap() as i64` for a decimal digit character. -/
def digitVal (c : Char) : Int := (c.toNat : Int) - 48

/-- The `match c` statement inside the `for c in s.chars()` loop of
`from_str`: a leading `'-'` sets the negative flag, `'.'` sets
`seen_decimal`, a digit folds into the magnitude (checked multiply and add,
and a checked `scale += 1` once past the decimal point), anything else
returns `InvalidDigit`.  `none` is an arithmetic-overflow panic. -/
def pcharMatch (st : ParseSt) (c : Char) : Option (Except ParseDecimalError ParseSt) :=
  if c = '-' ∧ st.index = 0 then some (.ok { st with negative := true })
  else if c = '.' then some (.ok { st with seen_decimal := true })
  else if c.isDigit then
    match chkMul st.unscaled 10 with
    | none => none
    | some m =>
      match chkAdd m (digitVal c) with
      | none => none
      | some u =>
        if st.seen_decimal then
          match chkU32Add st.scale 1 with
          | none => none
          | some sc => some (.ok { st with unscaled := u, scale := sc })
        else some (.ok { st with unscaled := u })
  else some (.error ⟨.InvalidDigit⟩)

/-- One full iteration of the parse loop: the character `match` followed by
the checked `index += 1` (skipped by the `InvalidDigit` early return). -/
def pstep (st : ParseSt) (c : Char) : Option (Except ParseDecimalError ParseSt) :=
  match pcharMatch st c with
  | none => none
  | some (.error e) => some (.error e)
  | some (.ok st') =>
    match chkU32Add st'.index 1 with
    | none => none
    | some i => some (.ok { st' with index := i })

/-- The whole `for` loop of `from_str`, threading the state through `pstep`. -/
def parseLoop (st : ParseSt) : List Char → Option (Except ParseDecimalError ParseSt)
  | [] => some (.ok st)
  | c :: cs =>
    match pstep st c with
    | none => none
    | some (.error e) => some (.error e)
    | some (.ok st') => parseLoop st' cs

/-- `impl str::FromStr for Decimal`: run the loop, then report `Empty` when no
character was seen, otherwise negate the accumulated magnitude if a leading
`'-'` was consumed. `none` is an arithmetic-overflow panic. -/
def from_str (s : List Char) : Option (Except ParseDecimalError Decimal) :=
  match parseLoop initSt s with
  | none => none
  | some (.error e) => some (.error e)
  | some (.ok st) =>
    if st.index = 0 then some (.error ⟨.Empty⟩)
    else
      if st.negative then
        match chkNeg st.unscaled with
        | none => none
        | some u => some (.ok ⟨u, st.scale⟩)
      else some (.ok ⟨st.unscaled, st.scale⟩)

deriving instance DecidableEq for Except

example : from_str ['1'] = some (.ok ⟨1, 0⟩) := by decide
example : from_str ['1', '.'] = some (.ok ⟨1, 0⟩) := by decide
example : from_str ['0', '.', '0', '1'] = some (.ok ⟨1, 2⟩) := by decide
example : from_str ['.', '0', '1'] = some (.ok ⟨1, 2⟩) := by decide
example : from_str ['-', '1', '.', '2', '5'] = some (.ok ⟨-125, 2⟩) := by decide
example : from_str ['-'] = some (.ok ⟨0, 0⟩) := by decide
example : from_str ['.'] = some (.ok ⟨0, 0⟩) := by decide
example : from_str ['-', '.'] = some (.ok ⟨0, 0⟩) := by decide
example : from_str [] = some (.error ⟨.Empty⟩) := by decide
example : from_str ['2', 'g'] = some (.error ⟨.InvalidDigit⟩) := by decide
example : from_str ['2', '-', '2'] = some (.error ⟨.InvalidDigit⟩) := by decide
example : Decimal.render ⟨150, 2⟩ = ['1', '.', '5', '0'] := by decide
example : Decimal.render ⟨10, 4⟩ = ['0', '.', '0', '0', '1', '0'] := by decide
example : Decimal.render ⟨-1, 1⟩ = ['-', '0', '.', '1'] := by decide
example : Decimal.render ⟨0, 0⟩ = ['0'] := by decide

/-! ### Digit-string facts used by the round-trip proofs -/

theorem isDigit_toNat {c : Char} (h : c.isDigit = true) :
    48 ≤ c.toNat ∧ c.toNat ≤ 57 := by
  simp [Char.isDigit] at h
  exact h

theorem isDigit_ne_dash {c : Char} (h : c.isDigit = true) : c ≠ '-' := by
  intro h2; subst h2; exact absurd h (by decide)

theorem isDigit_ne_dot {c : Char} (h : c.isDigit = true) : c ≠ '.' := by
  intro h2; subst h2; exact absurd h (by decide)

theorem digitVal_nonneg {c : Char} (h : c.isDigit = true) : 0 ≤ digitVal c := by
  have := isDigit_toNat h
  unfold digitVal
  omega

theorem digitVal_le {c : Char} (h : c.isDigit = true) : digitVal c ≤ 9 := by
  have := isDigit_toNat h
  unfold digitVal
  omega

theorem digitChar_toNat {d : Nat} (h : d < 10) : (digitChar d).toNat = 48 + d := by
  interval_cases d <;> decide

theorem digitChar_isDigit {d : Nat} (h : d < 10) : (digitChar d).isDigit = true := by
  interval_cases d <;> decide

theorem digitVal_digitChar {d : Nat} (h : d < 10) : digitVal (digitChar d) = d := by
  unfold digitVal
  rw [digitChar_toNat h]
  omega

/-- The integer value of a most-significant-first digit string, exactly as the
parser's loop accumulates it. -/
def digsVal (l : List Char) : Int :=
  l.foldl (fun a c => a * 10 + digitVal c) 0

theorem digsVal_nil : digsVal [] = 0 := rfl

theorem digsVal_foldl (a : Int) (l : List Char) :
    l.foldl (fun a c => a * 10 + digitVal c) a = a * 10 ^ l.length + digsVal l := by
  induction l generalizing a with
  | nil => simp [digsVal]
  | cons c cs ih =>
    simp only [List.foldl_cons, List.length_cons]
    rw [ih]
    have h2 : digsVal (c :: cs) = (0 * 10 + digitVal c) * 10 ^ cs.length + digsVal cs := by
      show List.foldl _ (0 * 10 + digitVal c) cs = _
      rw [ih]
    rw [h2]
    ring

theorem digsVal_cons (c : Char) (cs : List Char) :
    digsVal (c :: cs) = digitVal c * 10 ^ cs.length + digsVal cs := by
  show List.foldl _ (0 * 10 + digitVal c) cs = _
  rw [digsVal_foldl]
  ring

theorem digsVal_append (xs ys : List Char) :
    digsVal (xs ++ ys) = digsVal xs * 10 ^ ys.length + digsVal ys := by
  show List.foldl _ 0 (xs ++ ys) = _
  rw [List.foldl_append, digsVal_foldl]
  rfl

theorem digsVal_nonneg {l : List Char} (h : ∀ c ∈ l, c.isDigit = true) :
    0 ≤ digsVal l := by
  induction l with
  | nil => simp [digsVal]
  | cons c cs ih =>
    rw [digsVal_cons]
    have h1 := digitVal_nonneg (h c (List.mem_cons_self c cs))
    have h2 := ih (fun x hx => h x (List.mem_cons_of_mem c hx))
    positivity

theorem digsVal_replicate_zero (k : Nat) :
    digsVal (List.replicate k '0') = 0 := by
  induction k with
  | zero => rfl
  | succ n ih =>
    rw [List.replicate_succ, digsVal_cons, ih]
    simp [digitVal]

theorem natDigitsF_irrel {f f' n : Nat} (h : n < f) (h' : n < f') :
    natDigitsF f n = natDigitsF f' n := by
  induction f generalizing n f' with
  | zero => omega
  | succ fk ih =>
    obtain ⟨fk', rfl⟩ : ∃ k, f' = k + 1 := ⟨f' - 1, by omega⟩
    unfold natDigitsF
    by_cases h10 : n < 10
    · simp [h10]
    · simp only [h10, if_false]
      rw [@ih fk' (n / 10) (by omega) (by omega)]

theorem natDigits_eq (n : Nat) :
    natDigits n = if n < 10 then [digitChar n]
                  else natDigits (n / 10) ++ [digitChar (n % 10)] := by
  unfold natDigits
  conv_lhs => rw [natDigitsF]
  by_cases h10 : n < 10
  · simp [h10]
  · simp only [h10, if_false]
    rw [@natDigitsF_irrel n (n / 10 + 1) (n / 10) (by omega) (by omega)]

theorem natDigits_all_digit (n : Nat) : ∀ c ∈ natDigits n, c.isDigit = true := by
  induction n using Nat.strong_induction_on with
  | _ n ih =>
    rw [natDigits_eq]
    by_cases h10 : n < 10
    · simp only [h10, if_true, List.mem_singleton]
      rintro c rfl
      exact digitChar_isDigit h10
    · simp only [h10, if_false]
      intro c hc
      rcases List.mem_append.mp hc with h | h
      · exact ih (n / 10) (by omega) c h
      · rw [List.mem_singleton.mp h]
        exact digitChar_isDigit (by omega)

theorem digsVal_natDigits (n : Nat) : digsVal (natDigits n) = n := by
  induction n using Nat.strong_induction_on with
  | _ n ih =>
    rw [natDigits_eq]
    by_cases h10 : n < 10
    · simp only [h10, if_true]
      rw [digsVal_cons, digsVal_nil, digitVal_digitChar h10]
      simp
    · simp only [h10, if_false]
      rw [digsVal_append, ih (n / 10) (by omega), digsVal_cons, digsVal_nil,
        digitVal_digitChar (by omega : n % 10 < 10)]
      simp only [List.length_cons, List.length_nil, pow_one, pow_zero]
      push_cast
      omega

theorem natDigits_length_pos (n : Nat) : 0 < (natDigits n).length := by
  rw [natDigits_eq]
  by_cases h10 : n < 10
  · simp [h10]
  · simp [h10]

theorem natDigits_length_le {n k : Nat} (hk : 0 < k) (h : n < 10 ^ k) :
    (natDigits n).length ≤ k := by
  induction k generalizing n with
  | zero => omega
  | succ kk ih =>
    rw [natDigits_eq]
    by_cases h10 : n < 10
    · simp [h10]
    · simp only [h10, if_false, List.length_append, List.length_cons,
        List.length_nil]
      have hkk : 0 < kk := by
        by_contra hc
        have : kk = 0 := by omega
        subst this
        simp [pow_one] at h
        omega
      have hdiv : n / 10 < 10 ^ kk := by
        rw [Nat.div_lt_iff_lt_mul (by norm_num : 0 < 10)]
        calc n < 10 ^ (kk + 1) := h
          _ = 10 ^ kk * 10 := pow_succ 10 kk
      have := ih hkk hdiv
      omega

/-! ### Parse-loop lemmas -/

theorem pstep_dash {st : ParseSt} (h0 : st.index = 0) (h1 : st.index + 1 ≤ u32Max) :
    pstep st '-' = some (.ok { st with negative := true, index := st.index + 1 }) := by
  unfold pstep pcharMatch
  rw [if_pos ⟨rfl, h0⟩]
  simp only [chkU32Add, if_pos h1]

theorem pstep_dot {st : ParseSt} (h1 : st.index + 1 ≤ u32Max) :
    pstep st '.' = some (.ok { st with seen_decimal := true, index := st.index + 1 }) := by
  unfold pstep pcharMatch
  rw [if_neg (fun h => absurd h.1 (by decide)), if_pos rfl]
  simp only [chkU32Add, if_pos h1]

theorem pstep_digit {st : ParseSt} {c : Char} (hc : c.isDigit = true)
    (h0 : 0 ≤ st.unscaled)
    (hm : st.unscaled * 10 + digitVal c ≤ i64Max)
    (hsc : st.seen_decimal = true → st.scale + 1 ≤ u32Max)
    (hidx : st.index + 1 ≤ u32Max) :
    pstep st c = some (.ok { st with
      unscaled := st.unscaled * 10 + digitVal c,
      scale := st.scale + (if st.seen_decimal then 1 else 0),
      index := st.index + 1 }) := by
  have hv0 := digitVal_nonneg hc
  have hx : 0 ≤ st.unscaled * 10 := Int.mul_nonneg h0 (by norm_num)
  have hmul : inI64 (st.unscaled * 10) := ⟨by unfold i64Min; omega, by omega⟩
  have hadd : inI64 (st.unscaled * 10 + digitVal c) := ⟨by unfold i64Min; omega, hm⟩
  unfold pstep pcharMatch
  rw [if_neg (fun h => absurd hc (by rw [h.1]; decide)),
    if_neg (fun h => absurd hc (by rw [h]; decide)), if_pos hc]
  simp only [chkMul, chkAdd, if_pos hmul, if_pos hadd]
  cases hsd : st.seen_decimal with
  | false => simp [hsd, chkU32Add, if_pos hidx]
  | true => simp [hsd, chkU32Add, if_pos (hsc hsd), if_pos hidx]

theorem parseLoop_append (st : ParseSt) (xs ys : List Char) :
    parseLoop st (xs ++ ys) =
      match parseLoop st xs with
      | none => none
      | some (.error e) => some (.error e)
      | some (.ok st') => parseLoop st' ys := by
  induction xs generalizing st with
  | nil => simp [parseLoop]
  | cons c cs ih =>
    have hstep : parseLoop st (c :: cs) =
        match pstep st c with
        | none => none
        | some (Except.error e) => some (Except.error e)
        | some (Except.ok st') => parseLoop st' cs := rfl
    have hstep2 : parseLoop st ((c :: cs) ++ ys) =
        match pstep st c with
        | none => none
        | some (Except.error e) => some (Except.error e)
        | some (Except.ok st') => parseLoop st' (cs ++ ys) := rfl
    rw [hstep2, hstep]
    cases pstep st c with
    | none => rfl
    | some r =>
      cases r with
      | error e => rfl
      | ok st' =>
        show parseLoop st' (cs ++ ys) =
          match parseLoop st' cs with
          | none => none
          | some (Except.error e) => some (Except.error e)
          | some (Except.ok st'') => parseLoop st'' ys
        exact ih st'

theorem parseLoop_digits (ds : List Char) (st : ParseSt)
    (hd : ∀ c ∈ ds, c.isDigit = true)
    (h0 : 0 ≤ st.unscaled)
    (hmax : st.unscaled * 10 ^ ds.length + digsVal ds ≤ i64Max)
    (hidx : st.index + ds.length ≤ u32Max)
    (hsc : st.scale + (if st.seen_decimal then ds.length else 0) ≤ u32Max) :
    parseLoop st ds = some (.ok
      { unscaled := st.unscaled * 10 ^ ds.length + digsVal ds,
        scale := st.scale + (if st.seen_decimal then ds.length else 0),
        index := st.index + ds.length,
        negative := st.negative,
        seen_decimal := st.seen_decimal }) := by
  induction ds generalizing st with
  | nil => simp [parseLoop, digsVal]
  | cons c cs ih =>
    have hc : c.isDigit = true := hd c (List.mem_cons_self c cs)
    have hdcs : ∀ x ∈ cs, x.isDigit = true :=
      fun x hx => hd x (List.mem_cons_of_mem c hx)
    have hv0 := digitVal_nonneg hc
    have hnn : 0 ≤ digsVal cs := digsVal_nonneg hdcs
    have hval := digsVal_cons c cs
    have ha'0 : 0 ≤ st.unscaled * 10 + digitVal c := by
      have := Int.mul_nonneg h0 (by norm_num : (0:Int) ≤ 10)
      omega
    have hpow : (1 : Int) ≤ 10 ^ cs.length := by
      have := pow_pos (by norm_num : (0:Int) < 10) cs.length
      omega
    have hkey : st.unscaled * 10 ^ (cs.length + 1) + digsVal (c :: cs)
        = (st.unscaled * 10 + digitVal c) * 10 ^ cs.length + digsVal cs := by
      rw [hval]; ring
    have htot : (st.unscaled * 10 + digitVal c) * 10 ^ cs.length + digsVal cs ≤ i64Max := by
      rw [← hkey]
      simpa using hmax
    have hstepb : st.unscaled * 10 + digitVal c ≤ i64Max := by
      have h1 : st.unscaled * 10 + digitVal c
          ≤ (st.unscaled * 10 + digitVal c) * 10 ^ cs.length :=
        le_mul_of_one_le_right ha'0 hpow
      omega
    simp only [List.length_cons] at hmax hidx hsc
    have hstep := pstep_digit hc h0 hstepb
      (fun hdec => by rw [hdec] at hsc; simp at hsc; omega)
      (by omega)
    rw [show parseLoop st (c :: cs) =
        match pstep st c with
        | none => none
        | some (Except.error e) => some (Except.error e)
        | some (Except.ok st') => parseLoop st' cs from rfl]
    rw [hstep]
    show parseLoop { st with
        unscaled := st.unscaled * 10 + digitVal c,
        scale := st.scale + (if st.seen_decimal then 1 else 0),
        index := st.index + 1 } cs = _
    rw [ih _ hdcs ha'0 htot
      (by show st.index + 1 + cs.length ≤ u32Max; omega)
      (by show st.scale + (if st.seen_decimal then 1 else 0)
            + (if st.seen_decimal then cs.length else 0) ≤ u32Max
          cases hsd : st.seen_decimal <;> simp [hsd] at hsc ⊢ <;> omega)]
    have hidx2 : st.index + 1 + cs.length = st.index + (cs.length + 1) := by omega
    have hsc2 : st.scale + 1 + cs.length = st.scale + (cs.length + 1) := by omega
    cases hsd : st.seen_decimal with
    | false => simp [hsd, hidx2, hkey]
    | true => simp [hsd, hidx2, hsc2, hkey]

theorem parseLoop_dotted (pre post : List Char) (si : Nat) (sn : Bool)
    (hpre : ∀ c ∈ pre, c.isDigit = true) (hpost : ∀ c ∈ post, c.isDigit = true)
    (hval : digsVal pre * 10 ^ post.length + digsVal post ≤ i64Max)
    (hidx : si + pre.length + 1 + post.length ≤ u32Max)
    (hpl : post.length ≤ u32Max) :
    parseLoop ⟨0, 0, si, sn, false⟩ (pre ++ '.' :: post) =
      some (.ok ⟨digsVal pre * 10 ^ post.length + digsVal post,
                 post.length, si + pre.length + 1 + post.length, sn, true⟩) := by
  have hprenn : 0 ≤ digsVal pre := digsVal_nonneg hpre
  have hpostnn : 0 ≤ digsVal post := digsVal_nonneg hpost
  have hpow : (1 : Int) ≤ 10 ^ post.length := by
    have := pow_pos (by norm_num : (0:Int) < 10) post.length
    omega
  have hpre_le : digsVal pre ≤ i64Max := by
    have h1 : digsVal pre ≤ digsVal pre * 10 ^ post.length :=
      le_mul_of_one_le_right hprenn hpow
    omega
  rw [parseLoop_append]
  rw [parseLoop_digits pre ⟨0, 0, si, sn, false⟩ hpre (by norm_num)
    (by show (0:Int) * 10 ^ pre.length + digsVal pre ≤ i64Max; simpa using hpre_le)
    (by show si + pre.length ≤ u32Max; omega)
    (by show 0 + (if false then pre.length else 0) ≤ u32Max; simp)]
  show parseLoop ⟨0 * 10 ^ pre.length + digsVal pre,
      0 + (if false then pre.length else 0),
      si + pre.length, sn, false⟩ ('.' :: post) = _
  rw [show parseLoop ⟨0 * 10 ^ pre.length + digsVal pre,
        0 + (if false then pre.length else 0),
        si + pre.length, sn, false⟩ ('.' :: post) =
      (match pstep ⟨0 * 10 ^ pre.length + digsVal pre,
        0 + (if false then pre.length else 0),
        si + pre.length, sn, false⟩ '.' with
      | none => none
      | some (Except.error e) => some (Except.error e)
      | some (Except.ok st') => parseLoop st' post) from rfl]
  rw [pstep_dot (by show si + pre.length + 1 ≤ u32Max; omega)]
  show parseLoop ⟨0 * 10 ^ pre.length + digsVal pre,
      0 + (if false then pre.length else 0),
      si + pre.length + 1, sn, true⟩ post = _
  rw [parseLoop_digits post ⟨0 * 10 ^ pre.length + digsVal pre,
      0 + (if false then pre.length else 0),
      si + pre.length + 1, sn, true⟩ hpost
    (by show 0 ≤ (0:Int) * 10 ^ pre.length + digsVal pre; simpa using hprenn)
    (by show ((0:Int) * 10 ^ pre.length + digsVal pre) * 10 ^ post.length
          + digsVal post ≤ i64Max
        simpa using hval)
    (by show si + pre.length + 1 + post.length ≤ u32Max; omega)
    (by show 0 + (if false then pre.length else 0)
          + (if true then post.length else 0) ≤ u32Max
        simpa using hpl)]
  simp

theorem parseLoop_cons_dash (l : List Char) :
    parseLoop initSt ('-' :: l) = parseLoop ⟨0, 0, 1, true, false⟩ l := by
  rw [show parseLoop initSt ('-' :: l) =
      (match pstep initSt '-' with
      | none => none
      | some (Except.error e) => some (Except.error e)
      | some (Except.ok st') => parseLoop st' l) from rfl]
  rw [pstep_dash (show initSt.index = 0 from rfl)
    (by show 0 + 1 ≤ u32Max; norm_num [u32Max])]
  rfl

theorem from_str_run {l : List Char} {st : ParseSt}
    (h : parseLoop initSt l = some (.ok st)) :
    from_str l =
      if st.index = 0 then some (.error ⟨.Empty⟩)
      else if st.negative then
        match chkNeg st.unscaled with
        | none => none
        | some u => some (.ok ⟨u, st.scale⟩)
      else some (.ok ⟨st.unscaled, st.scale⟩) := by
  unfold from_str
  rw [h]

theorem from_str_of_run_pos {l : List Char} {a : Int} {sc idx : Nat} {sd : Bool}
    (h : parseLoop initSt l = some (.ok ⟨a, sc, idx, false, sd⟩)) (hidx : idx ≠ 0) :
    from_str l = some (.ok ⟨a, sc⟩) := by
  rw [from_str_run h]
  show (if idx = 0 then _ else _) = _
  rw [if_neg hidx]
  rfl

theorem from_str_of_run_neg {l : List Char} {m : Nat} {sc idx : Nat} {sd : Bool}
    (h : parseLoop initSt l = some (.ok ⟨(m : Int), sc, idx, true, sd⟩))
    (hidx : idx ≠ 0) (hm : (m : Int) ≤ 2 ^ 63 - 1) :
    from_str l = some (.ok ⟨-(m : Int), sc⟩) := by
  rw [from_str_run h]
  show (if idx = 0 then _ else _) = _
  rw [if_neg hidx]
  show (match chkNeg (m : Int) with
    | none => none
    | some u => some (Except.ok (⟨u, sc⟩ : Decimal))) = _
  unfold chkNeg
  rw [if_pos ⟨by unfold i64Min; omega, by unfold i64Max; omega⟩]

theorem natDigits_length_le_19 {n : Nat} (hn : n ≤ 9223372036854775808) :
    (natDigits n).length ≤ 19 := by
  refine natDigits_length_le (by norm_num) ?_
  have h19 : (10 : Nat) ^ 19 = 10000000000000000000 := by norm_num
  omega

theorem from_str_digits (n : Nat) (hn : (n : Int) ≤ i64Max) :
    from_str (natDigits n) = some (.ok ⟨(n : Int), 0⟩) := by
  have hd := natDigits_all_digit n
  have hlp := natDigits_length_pos n
  have hnN : n ≤ 9223372036854775807 := by
    unfold i64Max at hn
    omega
  have hlen : (natDigits n).length ≤ 19 := natDigits_length_le_19 (by omega)
  have hu32 : u32Max = 4294967295 := by norm_num [u32Max]
  have hrun := parseLoop_digits (natDigits n) initSt hd (le_refl 0)
    (by show (0:Int) * 10 ^ (natDigits n).length + digsVal (natDigits n) ≤ i64Max
        rw [digsVal_natDigits]
        simpa using hn)
    (by show 0 + (natDigits n).length ≤ u32Max; omega)
    (by show 0 + (if false then (natDigits n).length else 0) ≤ u32Max; simp)
  have hrun' : parseLoop initSt (natDigits n) =
      some (.ok ⟨(n : Int), 0, (natDigits n).length, false, false⟩) := by
    rw [hrun, digsVal_natDigits]
    simp [initSt]
  exact from_str_of_run_pos hrun' (by omega)

theorem from_str_dash_digits (n : Nat) (hn : (n : Int) ≤ i64Max) :
    from_str ('-' :: natDigits n) = some (.ok ⟨-(n : Int), 0⟩) := by
  have hd := natDigits_all_digit n
  have hlp := natDigits_length_pos n
  have hnN : n ≤ 9223372036854775807 := by
    unfold i64Max at hn
    omega
  have hlen : (natDigits n).length ≤ 19 := natDigits_length_le_19 (by omega)
  have hu32 : u32Max = 4294967295 := by norm_num [u32Max]
  have hrun := parseLoop_digits (natDigits n) ⟨0, 0, 1, true, false⟩ hd (le_refl 0)
    (by show (0:Int) * 10 ^ (natDigits n).length + digsVal (natDigits n) ≤ i64Max
        rw [digsVal_natDigits]
        simpa using hn)
    (by show 1 + (natDigits n).length ≤ u32Max; omega)
    (by show 0 + (if false then (natDigits n).length else 0) ≤ u32Max; simp)
  have hrun' : parseLoop initSt ('-' :: natDigits n) =
      some (.ok ⟨(n : Int), 0, 1 + (natDigits n).length, true, false⟩) := by
    rw [parseLoop_cons_dash, hrun, digsVal_natDigits]
    simp
  exact from_str_of_run_neg hrun' (by omega) (by unfold i64Max at hn; omega)

theorem parseLoop_body (m s si : Nat) (sn : Bool)
    (hm : (m : Int) ≤ i64Max) (hs : s ≠ 0) (h3 : s + 3 ≤ u32Max) (hsi : si ≤ 1) :
    ∃ idx, idx ≠ 0 ∧
      parseLoop ⟨0, 0, si, sn, false⟩
        (if s ≥ (natDigits m).length then
          '0' :: '.' :: (List.replicate (s - (natDigits m).length) '0' ++ natDigits m)
        else
          (natDigits m).take ((natDigits m).length - s)
            ++ '.' :: (natDigits m).drop ((natDigits m).length - s))
      = some (.ok ⟨(m : Int), s, idx, sn, true⟩) := by
  have hd := natDigits_all_digit m
  have hlp := natDigits_length_pos m
  have hnN : m ≤ 9223372036854775807 := by
    unfold i64Max at hm
    omega
  have hlen : (natDigits m).length ≤ 19 := natDigits_length_le_19 (by omega)
  have hu32 : u32Max = 4294967295 := by norm_num [u32Max]
  by_cases hge : s ≥ (natDigits m).length
  · rw [if_pos hge]
    refine ⟨si + 1 + 1 + s, by omega, ?_⟩
    have hpost : ∀ c ∈ List.replicate (s - (natDigits m).length) '0' ++ natDigits m,
        c.isDigit = true := by
      intro c hc
      rcases List.mem_append.mp hc with h | h
      · rw [List.eq_of_mem_replicate h]
        decide
      · exact hd c h
    have hplen : (List.replicate (s - (natDigits m).length) '0' ++ natDigits m).length
        = s := by
      simp only [List.length_append, List.length_replicate]
      omega
    have hpval : digsVal (List.replicate (s - (natDigits m).length) '0' ++ natDigits m)
        = (m : Int) := by
      rw [digsVal_append, digsVal_replicate_zero, digsVal_natDigits]
      ring
    have hdot := parseLoop_dotted ['0']
      (List.replicate (s - (natDigits m).length) '0' ++ natDigits m) si sn
      (by intro c hc; rw [List.mem_singleton.mp hc]; decide) hpost
      (by rw [hplen, hpval]
          have : digsVal ['0'] = 0 := by decide
          rw [this]
          simpa using hm)
      (by rw [hplen]; show si + 1 + 1 + s ≤ u32Max; omega)
      (by rw [hplen]; omega)
    rw [show ('0' :: '.' ::
        (List.replicate (s - (natDigits m).length) '0' ++ natDigits m)) =
      (['0'] ++ '.' ::
        (List.replicate (s - (natDigits m).length) '0' ++ natDigits m)) from rfl]
    rw [hdot, hplen, hpval]
    have : digsVal ['0'] = 0 := by decide
    rw [this]
    norm_num
  · rw [if_neg hge]
    have hsl : s < (natDigits m).length := by omega
    have htake : ∀ c ∈ (natDigits m).take ((natDigits m).length - s),
        c.isDigit = true := fun c hc => hd c (List.take_subset _ _ hc)
    have hdrop : ∀ c ∈ (natDigits m).drop ((natDigits m).length - s),
        c.isDigit = true := fun c hc => hd c (List.drop_subset _ _ hc)
    have hdlen : ((natDigits m).drop ((natDigits m).length - s)).length = s := by
      simp only [List.length_drop]
      omega
    have htlen : ((natDigits m).take ((natDigits m).length - s)).length
        = (natDigits m).length - s := by
      simp only [List.length_take]
      omega
    have hsplit : (natDigits m).take ((natDigits m).length - s)
        ++ (natDigits m).drop ((natDigits m).length - s) = natDigits m :=
      List.take_append_drop _ _
    have hval2 : digsVal ((natDigits m).take ((natDigits m).length - s)) * 10 ^ s
        + digsVal ((natDigits m).drop ((natDigits m).length - s)) = (m : Int) := by
      have happ := digsVal_append ((natDigits m).take ((natDigits m).length - s))
        ((natDigits m).drop ((natDigits m).length - s))
      rw [hsplit, digsVal_natDigits, hdlen] at happ
      exact happ.symm
    refine ⟨si + ((natDigits m).length - s) + 1 + s, by omega, ?_⟩
    have hdot := parseLoop_dotted
      ((natDigits m).take ((natDigits m).length - s))
      ((natDigits m).drop ((natDigits m).length - s)) si sn htake hdrop
      (by rw [hdlen, hval2]; exact hm)
      (by rw [hdlen, htlen]; show si + ((natDigits m).length - s) + 1 + s ≤ u32Max; omega)
      (by rw [hdlen]; omega)
    rw [hdot, hdlen, htlen, hval2]

theorem from_str_render (u : Int) (s : Nat)
    (h1 : i64Min < u) (h2 : u ≤ i64Max) (h3 : s + 3 ≤ u32Max) :
    from_str (Decimal.render ⟨u, s⟩) = some (.ok ⟨u, s⟩) := by
  by_cases hs : s = 0
  · subst hs
    show from_str (fmtInt u) = _
    by_cases hneg : u < 0
    · unfold fmtInt
      rw [if_pos hneg]
      have hn : (u.natAbs : Int) ≤ i64Max := by unfold i64Min i64Max at *; omega
      rw [from_str_dash_digits u.natAbs hn]
      rw [show -(u.natAbs : Int) = u from by omega]
    · unfold fmtInt
      rw [if_neg hneg]
      have hun : (u.toNat : Int) = u := Int.toNat_of_nonneg (by omega)
      have hn : (u.toNat : Int) ≤ i64Max := by rw [hun]; exact h2
      rw [from_str_digits u.toNat hn, hun]
  · have hrend : Decimal.render ⟨u, s⟩ =
        (if u < 0 then ['-'] else []) ++
          (if s ≥ (natDigits u.natAbs).length then
            '0' :: '.' :: (List.replicate (s - (natDigits u.natAbs).length) '0'
              ++ natDigits u.natAbs)
          else
            (natDigits u.natAbs).take ((natDigits u.natAbs).length - s)
              ++ '.' :: (natDigits u.natAbs).drop ((natDigits u.natAbs).length - s)) := by
      unfold Decimal.render
      rw [if_neg hs]
    rw [hrend]
    have hm : (u.natAbs : Int) ≤ i64Max := by unfold i64Min i64Max at *; omega
    by_cases hneg : u < 0
    · rw [if_pos hneg]
      obtain ⟨idx, hidx, hrun⟩ := parseLoop_body u.natAbs s 1 true hm hs h3 (by omega)
      have hfull : parseLoop initSt (['-'] ++
          (if s ≥ (natDigits u.natAbs).length then
            '0' :: '.' :: (List.replicate (s - (natDigits u.natAbs).length) '0'
              ++ natDigits u.natAbs)
          else
            (natDigits u.natAbs).take ((natDigits u.natAbs).length - s)
              ++ '.' :: (natDigits u.natAbs).drop ((natDigits u.natAbs).length - s)))
          = some (.ok ⟨(u.natAbs : Int), s, idx, true, true⟩) := by
        rw [show (['-'] ++
            (if s ≥ (natDigits u.natAbs).length then
              '0' :: '.' :: (List.replicate (s - (natDigits u.natAbs).length) '0'
                ++ natDigits u.natAbs)
            else
              (natDigits u.natAbs).take ((natDigits u.natAbs).length - s)
                ++ '.' :: (natDigits u.natAbs).drop ((natDigits u.natAbs).length - s))
            : List Char) = '-' :: _ from rfl, parseLoop_cons_dash]
        exact hrun
      rw [from_str_of_run_neg hfull hidx (by unfold i64Max at hm; omega)]
      rw [show -(u.natAbs : Int) = u from by omega]
    · rw [if_neg hneg]
      obtain ⟨idx, hidx, hrun⟩ := parseLoop_body u.natAbs s 0 false hm hs h3 (by omega)
      have hfull : parseLoop initSt ([] ++
          (if s ≥ (natDigits u.natAbs).length then
            '0' :: '.' :: (List.replicate (s - (natDigits u.natAbs).length) '0'
              ++ natDigits u.natAbs)
          else
            (natDigits u.natAbs).take ((natDigits u.natAbs).length - s)
              ++ '.' :: (natDigits u.natAbs).drop ((natDigits u.natAbs).length - s)))
          = some (.ok ⟨(u.natAbs : Int), s, idx, false, true⟩) := by
        rw [List.nil_append]
        exact hrun
      rw [from_str_of_run_pos hfull hidx]
      rw [show (u.natAbs : Int) = u from by omega]

/-! ### Arithmetic facts about truncated division and the checked helpers -/

theorem natAbs_tmod (a b : Int) : (a.tmod b).natAbs = a.natAbs % b.natAbs := by
  cases a <;> cases b <;>
    simp only [Int.tmod, Int.natAbs_neg, Int.natAbs_ofNat, Int.natAbs_negSucc] <;> rfl

theorem tdiv_tdiv {n a b : Int} (ha : 0 ≤ a) (hb : 0 ≤ b) :
    (n.tdiv a).tdiv b = n.tdiv (a * b) := by
  have h1 : ((n.tdiv a).tdiv b).natAbs = n.natAbs / a.natAbs / b.natAbs := by
    rw [Int.natAbs_tdiv, Int.natAbs_tdiv]
    rfl
  have h2 : (n.tdiv (a * b)).natAbs = n.natAbs / (a.natAbs * b.natAbs) := by
    rw [Int.natAbs_tdiv, Int.natAbs_mul]
    rfl
  have h3 : n.natAbs / a.natAbs / b.natAbs = n.natAbs / (a.natAbs * b.natAbs) :=
    Nat.div_div_eq_div_mul _ _ _
  rcases le_or_lt 0 n with hn | hn
  · have q1 : 0 ≤ (n.tdiv a).tdiv b := Int.tdiv_nonneg (Int.tdiv_nonneg hn ha) hb
    have q2 : 0 ≤ n.tdiv (a * b) := Int.tdiv_nonneg hn (mul_nonneg ha hb)
    omega
  · have hn' : n = -(-n) := by ring
    have q1 : (n.tdiv a).tdiv b ≤ 0 := by
      rw [hn', Int.neg_tdiv, Int.neg_tdiv]
      have := Int.tdiv_nonneg (Int.tdiv_nonneg (by omega : 0 ≤ -n) ha) hb
      omega
    have q2 : n.tdiv (a * b) ≤ 0 := by
      rw [hn', Int.neg_tdiv]
      have := Int.tdiv_nonneg (by omega : 0 ≤ -n) (mul_nonneg ha hb)
      omega
    omega

theorem downscale_eq (n : Int) (k : Nat) : downscale n k = n.tdiv (10 ^ k) := by
  induction k with
  | zero =>
    show n = n.tdiv 1
    rw [Int.tdiv_one]
  | succ kk ih =>
    show (downscale n kk).tdiv 10 = _
    rw [ih, tdiv_tdiv (by positivity) (by norm_num), pow_succ]

theorem chkAdd_some {a b u : Int} (h : chkAdd a b = some u) : u = a + b ∧ inI64 u := by
  unfold chkAdd at h
  split at h
  · cases h; exact ⟨rfl, by assumption⟩
  · cases h

theorem chkSub_some {a b u : Int} (h : chkSub a b = some u) : u = a - b ∧ inI64 u := by
  unfold chkSub at h
  split at h
  · cases h; exact ⟨rfl, by assumption⟩
  · cases h

theorem chkMul_some {a b u : Int} (h : chkMul a b = some u) : u = a * b ∧ inI64 u := by
  unfold chkMul at h
  split at h
  · cases h; exact ⟨rfl, by assumption⟩
  · cases h

theorem chkU32Add_some {a b u : Nat} (h : chkU32Add a b = some u) :
    u = a + b ∧ u ≤ u32Max := by
  unfold chkU32Add at h
  split at h
  · cases h; exact ⟨rfl, by assumption⟩
  · cases h

theorem chkDiv_some {n d q : Int} (h : chkDiv n d = some q) :
    q = n.tdiv d ∧ d ≠ 0 := by
  unfold chkDiv at h
  split at h
  · cases h
  · split at h
    · cases h
    · cases h; exact ⟨rfl, by assumption⟩

theorem chkRem_some {n d r : Int} (h : chkRem n d = some r) :
    r = n.tmod d ∧ d ≠ 0 := by
  unfold chkRem at h
  split at h
  · cases h
  · split at h
    · cases h
    · cases h; exact ⟨rfl, by assumption⟩

theorem upscale_some {n : Int} {k : Nat} {v : Int} (h : upscale n k = some v) :
    v = n * 10 ^ k := by
  induction k generalizing v with
  | zero =>
    cases h
    simp
  | succ kk ih =>
    unfold upscale at h
    split at h
    · cases h
    next r hr =>
      obtain ⟨hv, _⟩ := chkMul_some h
      rw [hv, ih hr, pow_succ, mul_assoc]

theorem upscale_char {n : Int} (hn : inI64 n) (k : Nat) :
    (inI64 (n * 10 ^ k) → upscale n k = some (n * 10 ^ k)) ∧
    (¬ inI64 (n * 10 ^ k) → upscale n k = none) := by
  induction k with
  | zero =>
    constructor
    · intro _
      show some n = _
      simp
    · intro hcon
      exact absurd (by simpa using hn) hcon
  | succ kk ih =>
    have hrw : n * 10 ^ (kk + 1) = n * 10 ^ kk * 10 := by ring
    constructor
    · intro hin
      rw [hrw] at hin
      have hin' : inI64 (n * 10 ^ kk) := by
        unfold inI64 i64Min i64Max at hin ⊢
        omega
      unfold upscale
      rw [ih.1 hin']
      show chkMul (n * 10 ^ kk) 10 = _
      unfold chkMul
      rw [if_pos hin, hrw]
    · intro hout
      rw [hrw] at hout
      by_cases hin' : inI64 (n * 10 ^ kk)
      · unfold upscale
        rw [ih.1 hin']
        show chkMul (n * 10 ^ kk) 10 = none
        unfold chkMul
        rw [if_neg hout]
      · unfold upscale
        rw [ih.2 hin']

theorem add_of_scale_eq {a b : Decimal} (h : a.scale = b.scale) :
    Decimal.add a b = match chkAdd a.unscaled b.unscaled with
      | none => none
      | some u => some ⟨u, a.scale⟩ := by
  rw [Decimal.add.eq_def]
  split
  · rfl
  next heq => exact absurd (natCmp_lt_iff.mp heq) (by omega)
  next heq => exact absurd (natCmp_gt_iff.mp heq) (by omega)

theorem add_of_scale_lt {a b : Decimal} (h : a.scale < b.scale) :
    Decimal.add a b = match a.adjust_scale b.scale with
      | none => none
      | some s => Decimal.add s b := by
  rw [Decimal.add.eq_def]
  split
  next heq => exact absurd (natCmp_eq_iff.mp heq) (by omega)
  · split <;> rename_i heq2 <;> rw [heq2]
  next heq => exact absurd (natCmp_gt_iff.mp heq) (by omega)

theorem add_of_scale_gt {a b : Decimal} (h : b.scale < a.scale) :
    Decimal.add a b = match b.adjust_scale a.scale with
      | none => none
      | some o => Decimal.add a o := by
  rw [Decimal.add.eq_def]
  split
  next heq => exact absurd (natCmp_eq_iff.mp heq) (by omega)
  next heq => exact absurd (natCmp_lt_iff.mp heq) (by omega)
  · split <;> rename_i heq2 <;> rw [heq2]

theorem sub_of_scale_eq {a b : Decimal} (h : a.scale = b.scale) :
    Decimal.sub a b = match chkSub a.unscaled b.unscaled with
      | none => none
      | some u => some ⟨u, a.scale⟩ := by
  rw [Decimal.sub.eq_def]
  split
  · rfl
  next heq => exact absurd (natCmp_lt_iff.mp heq) (by omega)
  next heq => exact absurd (natCmp_gt_iff.mp heq) (by omega)

theorem sub_of_scale_lt {a b : Decimal} (h : a.scale < b.scale) :
    Decimal.sub a b = match a.adjust_scale b.scale with
      | none => none
      | some s => Decimal.sub s b := by
  rw [Decimal.sub.eq_def]
  split
  next heq => exact absurd (natCmp_eq_iff.mp heq) (by omega)
  · split <;> rename_i heq2 <;> rw [heq2]
  next heq => exact absurd (natCmp_gt_iff.mp heq) (by omega)

theorem sub_of_scale_gt {a b : Decimal} (h : b.scale < a.scale) :
    Decimal.sub a b = match b.adjust_scale a.scale with
      | none => none
      | some o => Decimal.sub a o := by
  rw [Decimal.sub.eq_def]
  split
  next heq => exact absurd (natCmp_eq_iff.mp heq) (by omega)
  next heq => exact absurd (natCmp_lt_iff.mp heq) (by omega)
  · split <;> rename_i heq2 <;> rw [heq2]

theorem adjust_scale_of_lt {d : Decimal} {t : Nat} (h : d.scale < t) :
    d.adjust_scale t = match upscale d.unscaled (t - d.scale) with
      | none => none
      | some v => some ⟨v, t⟩ := by
  unfold Decimal.adjust_scale
  rw [natCmp_lt_iff.mpr h]

theorem adjust_scale_of_gt {d : Decimal} {t : Nat} (h : t < d.scale) :
    d.adjust_scale t = some ⟨downscale d.unscaled (d.scale - t), t⟩ := by
  unfold Decimal.adjust_scale
  rw [natCmp_gt_iff.mpr h]

theorem adjust_scale_some_lt {d : Decimal} {t : Nat} {r : Decimal}
    (hlt : d.scale < t) (h : d.adjust_scale t = some r) :
    r = ⟨d.unscaled * 10 ^ (t - d.scale), t⟩ := by
  rw [adjust_scale_of_lt hlt] at h
  split at h
  · cases h
  next v hv =>
    cases h
    rw [upscale_some hv]

theorem add_aligned_some {a b r : Decimal} (hsc : a.scale = b.scale)
    (h : Decimal.add a b = some r) : r = ⟨a.unscaled + b.unscaled, a.scale⟩ := by
  rw [add_of_scale_eq hsc] at h
  split at h
  · cases h
  next u hu =>
    cases h
    rw [(chkAdd_some hu).1]

theorem sub_aligned_some {a b r : Decimal} (hsc : a.scale = b.scale)
    (h : Decimal.sub a b = some r) : r = ⟨a.unscaled - b.unscaled, a.scale⟩ := by
  rw [sub_of_scale_eq hsc] at h
  split at h
  · cases h
  next u hu =>
    cases h
    rw [(chkSub_some hu).1]

theorem add_spec {a b r : Decimal} (h : Decimal.add a b = some r) :
    r.scale = max a.scale b.scale ∧
    r.unscaled = a.unscaled * 10 ^ (max a.scale b.scale - a.scale)
      + b.unscaled * 10 ^ (max a.scale b.scale - b.scale) := by
  rcases Nat.lt_trichotomy a.scale b.scale with hlt | heq | hgt
  · rw [add_of_scale_lt hlt] at h
    split at h
    · cases h
    next s hs =>
      rw [adjust_scale_some_lt hlt hs] at h
      rw [@add_aligned_some ⟨a.unscaled * 10 ^ (b.scale - a.scale), b.scale⟩ b r rfl h]
      have hmx : max a.scale b.scale = b.scale := by omega
      simp [hmx, Nat.sub_self]
  · rw [add_aligned_some heq h]
    have hmx : max a.scale b.scale = a.scale := by omega
    simp [hmx, Nat.sub_self, heq]
  · rw [add_of_scale_gt hgt] at h
    split at h
    · cases h
    next o ho =>
      rw [adjust_scale_some_lt hgt ho] at h
      rw [@add_aligned_some a ⟨b.unscaled * 10 ^ (a.scale - b.scale), a.scale⟩ r rfl h]
      have hmx : max a.scale b.scale = a.scale := by omega
      simp [hmx, Nat.sub_self]

theorem sub_spec {a b r : Decimal} (h : Decimal.sub a b = some r) :
    r.scale = max a.scale b.scale ∧
    r.unscaled = a.unscaled * 10 ^ (max a.scale b.scale - a.scale)
      - b.unscaled * 10 ^ (max a.scale b.scale - b.scale) := by
  rcases Nat.lt_trichotomy a.scale b.scale with hlt | heq | hgt
  · rw [sub_of_scale_lt hlt] at h
    split at h
    · cases h
    next s hs =>
      rw [adjust_scale_some_lt hlt hs] at h
      rw [@sub_aligned_some ⟨a.unscaled * 10 ^ (b.scale - a.scale), b.scale⟩ b r rfl h]
      have hmx : max a.scale b.scale = b.scale := by omega
      simp [hmx, Nat.sub_self]
  · rw [sub_aligned_some heq h]
    have hmx : max a.scale b.scale = a.scale := by omega
    simp [hmx, Nat.sub_self, heq]
  · rw [sub_of_scale_gt hgt] at h
    split at h
    · cases h
    next o ho =>
      rw [adjust_scale_some_lt hgt ho] at h
      rw [@sub_aligned_some a ⟨b.unscaled * 10 ^ (a.scale - b.scale), a.scale⟩ r rfl h]
      have hmx : max a.scale b.scale = a.scale := by omega
      simp [hmx, Nat.sub_self]

theorem div_spec {a b q : Decimal} (h : Decimal.div a b = some q) :
    q.scale = max a.scale b.scale - b.scale ∧
    q.unscaled = (a.unscaled * 10 ^ (max a.scale b.scale - a.scale)).tdiv b.unscaled ∧
    b.unscaled ≠ 0 := by
  unfold Decimal.div at h
  by_cases hgt : b.scale > a.scale
  · rw [if_pos hgt] at h
    split at h
    · cases h
    next s hs =>
      rw [adjust_scale_some_lt hgt hs] at h
      split at h
      · cases h
      next qv hq =>
        cases h
        obtain ⟨h1, h2⟩ := chkDiv_some hq
        have hmx : max a.scale b.scale = b.scale := by omega
        refine ⟨by simp [hmx], ?_, h2⟩
        rw [h1, hmx]
  · rw [if_neg hgt] at h
    replace h : (match chkDiv a.unscaled b.unscaled with
      | none => none
      | some qv => some (⟨qv, a.scale - b.scale⟩ : Decimal)) = some q := h
    split at h
    · cases h
    next qv hq =>
      cases h
      obtain ⟨h1, h2⟩ := chkDiv_some hq
      have hmx : max a.scale b.scale = a.scale := by omega
      refine ⟨by simp [hmx], ?_, h2⟩
      rw [h1, hmx]
      simp

theorem rem_spec {a b r : Decimal} (h : Decimal.rem a b = some r) :
    r.scale = max a.scale b.scale ∧
    r.unscaled = (a.unscaled * 10 ^ (max a.scale b.scale - a.scale)).tmod b.unscaled ∧
    b.unscaled ≠ 0 := by
  unfold Decimal.rem at h
  by_cases hgt : b.scale > a.scale
  · rw [if_pos hgt] at h
    split at h
    · cases h
    next s hs =>
      rw [adjust_scale_some_lt hgt hs] at h
      split at h
      · cases h
      next rv hr =>
        cases h
        obtain ⟨h1, h2⟩ := chkRem_some hr
        have hmx : max a.scale b.scale = b.scale := by omega
        refine ⟨by simp [hmx], ?_, h2⟩
        rw [h1, hmx]
  · rw [if_neg hgt] at h
    replace h : (match chkRem a.unscaled b.unscaled with
      | none => none
      | some rv => some (⟨rv, a.scale⟩ : Decimal)) = some r := h
    split at h
    · cases h
    next rv hr =>
      cases h
      obtain ⟨h1, h2⟩ := chkRem_some hr
      have hmx : max a.scale b.scale = a.scale := by omega
      refine ⟨by simp [hmx], ?_, h2⟩
      rw [h1, hmx]
      simp

theorem i64cmp_mul_right {x y c : Int} (hc : 0 < c) :
    i64cmp (x * c) (y * c) = i64cmp x y := by
  unfold i64cmp
  rcases lt_trichotomy x y with h | h | h
  · rw [if_pos h, if_pos ((mul_lt_mul_right hc).mpr h)]
  · subst h
    rw [if_neg (lt_irrefl x), if_pos rfl, if_neg (lt_irrefl (x * c)), if_pos rfl]
  · have h1 : ¬ x < y := by omega
    have h2 : ¬ x = y := by omega
    have h3 : ¬ x * c < y * c := fun hcon => h1 ((mul_lt_mul_right hc).mp hcon)
    have h4 : ¬ x * c = y * c := fun hcon => h2 (mul_right_cancel₀ (by omega) hcon)
    rw [if_neg h3, if_neg h4, if_neg h1, if_neg h2]

theorem partialCmp_some {a b : Decimal} {r : Option Ordering}
    (h : Decimal.partialCmp a b = some r) :
    r = some (i64cmp (a.unscaled * 10 ^ b.scale) (b.unscaled * 10 ^ a.scale)) := by
  have hpow : ∀ k : Nat, (0 : Int) < 10 ^ k := fun k => pow_pos (by norm_num) k
  unfold Decimal.partialCmp at h
  split at h
  next heq =>
    have hsc := natCmp_eq_iff.mp heq
    cases h
    rw [hsc, i64cmp_mul_right (hpow b.scale)]
  next heq =>
    have hsc := natCmp_gt_iff.mp heq
    split at h
    · cases h
    next v hv =>
      cases h
      rw [upscale_some hv]
      rw [show b.unscaled * 10 ^ a.scale
          = (b.unscaled * 10 ^ (a.scale - b.scale)) * 10 ^ b.scale from by
        rw [mul_assoc, ← pow_add]
        congr 2
        omega]
      rw [i64cmp_mul_right (hpow b.scale)]
  next heq =>
    have hsc := natCmp_lt_iff.mp heq
    split at h
    · cases h
    next v hv =>
      cases h
      rw [upscale_some hv]
      rw [show a.unscaled * 10 ^ b.scale
          = (a.unscaled * 10 ^ (b.scale - a.scale)) * 10 ^ a.scale from by
        rw [mul_assoc, ← pow_add]
        congr 2
        omega]
      rw [i64cmp_mul_right (hpow a.scale)]

theorem pcharMatch_ok_index {st : ParseSt} {c : Char} {st1 : ParseSt}
    (h : pcharMatch st c = some (.ok st1)) : st1.index = st.index := by
  unfold pcharMatch at h
  repeat' split at h
  all_goals try simp_all
  all_goals rw [← h]

theorem pstep_ok_index {st : ParseSt} {c : Char} {st' : ParseSt}
    (h : pstep st c = some (.ok st')) : st'.index = st.index + 1 := by
  unfold pstep at h
  split at h
  · simp at h
  · simp at h
  next st1 hm =>
    split at h
    · simp at h
    next i hi =>
      obtain ⟨hadd, _⟩ := chkU32Add_some hi
      have hix := pcharMatch_ok_index hm
      simp only [Option.some.injEq, Except.ok.injEq] at h
      rw [← h]
      show i = st.index + 1
      omega

theorem parseLoop_ok_index {l : List Char} {st0 st : ParseSt}
    (h : parseLoop st0 l = some (.ok st)) : st.index = st0.index + l.length := by
  induction l generalizing st0 with
  | nil =>
    simp only [parseLoop, Option.some.injEq, Except.ok.injEq] at h
    rw [← h]
    simp
  | cons c cs ih =>
    rw [show parseLoop st0 (c :: cs) = (match pstep st0 c with
      | none => none
      | some (Except.error e) => some (Except.error e)
      | some (Except.ok st') => parseLoop st' cs) from rfl] at h
    split at h
    · simp at h
    · simp at h
    next st1 hstep =>
      have h1 := pstep_ok_index hstep
      have h2 := ih h
      simp only [List.length_cons]
      omega

theorem pstep_invalid {st : ParseSt} {c : Char} (h1 : c.isDigit = false)
    (h2 : c ≠ '.') (h3 : ¬(c = '-' ∧ st.index = 0)) :
    pstep st c = some (.error ⟨.InvalidDigit⟩) := by
  unfold pstep pcharMatch
  rw [if_neg h3, if_neg h2, if_neg (by simp [h1])]

theorem from_str_invalid {p : List Char} {c : Char} {rest : List Char} {st : ParseSt}
    (hp : parseLoop initSt p = some (.ok st))
    (h1 : c.isDigit = false) (h2 : c ≠ '.') (h3 : c = '-' → p ≠ []) :
    from_str (p ++ c :: rest) = some (.error ⟨.InvalidDigit⟩) := by
  have hidx : st.index = p.length := by
    have := parseLoop_ok_index hp
    simpa [initSt] using this
  have h3' : ¬(c = '-' ∧ st.index = 0) := by
    rintro ⟨hc, hz⟩
    rw [hidx] at hz
    exact h3 hc (List.length_eq_zero.mp hz)
  have hrun : parseLoop initSt (p ++ c :: rest) = some (.error ⟨.InvalidDigit⟩) := by
    rw [parseLoop_append, hp]
    show parseLoop st (c :: rest) = _
    rw [show parseLoop st (c :: rest) = (match pstep st c with
      | none => none
      | some (Except.error e) => some (Except.error e)
      | some (Except.ok st') => parseLoop st' rest) from rfl]
    rw [pstep_invalid h1 h2 h3']
  unfold from_str
  rw [hrun]

theorem add_comm_aligned {x y : Decimal} (h : x.scale = y.scale) :
    Decimal.add x y = Decimal.add y x := by
  rw [add_of_scale_eq h, add_of_scale_eq h.symm]
  rw [show chkAdd x.unscaled y.unscaled = chkAdd y.unscaled x.unscaled from by
    unfold chkAdd
    rw [Int.add_comm]]
  cases chkAdd y.unscaled x.unscaled with
  | none => rfl
  | some u => rw [h]

theorem tdiv_mul_inI64 {x y : Int} (hx : inI64 x) (hy : inI64 y) (hyz : y ≠ 0) :
    inI64 (x.tdiv y * y) := by
  have h1 : (x.tdiv y * y).natAbs ≤ x.natAbs := by
    rw [Int.natAbs_mul, Int.natAbs_tdiv]
    exact Nat.div_mul_le_self _ _
  have h2 : y * (x.tdiv y) + x.tmod y = x := Int.tdiv_add_tmod x y
  have h2' : x.tdiv y * y + x.tmod y = x := by
    rw [mul_comm] at h2
    exact h2
  have h4 : (x.tmod y).natAbs < y.natAbs := by
    rw [natAbs_tmod]
    exact Nat.mod_lt _ (Int.natAbs_pos.mpr hyz)
  unfold inI64 i64Min i64Max at *
  omega

theorem div_rem_rebuild {au bu : Int} {s : Nat}
    (ha : inI64 au) (hb : inI64 bu) (hs : s ≤ u32Max) (hbz : bu ≠ 0)
    (hov : ¬(au = i64Min ∧ bu = -1)) :
    ((Decimal.div ⟨au, s⟩ ⟨bu, s⟩).bind fun q =>
      (Decimal.mul q ⟨bu, s⟩).bind fun p =>
        (Decimal.rem ⟨au, s⟩ ⟨bu, s⟩).bind fun r =>
          (Decimal.add p r).bind fun t =>
            t.adjust_scale s) = some ⟨au, s⟩ := by
  have hdiv : Decimal.div ⟨au, s⟩ ⟨bu, s⟩ = some ⟨au.tdiv bu, 0⟩ := by
    unfold Decimal.div
    rw [if_neg (lt_irrefl s)]
    show (match chkDiv au bu with
      | none => none
      | some q => some (⟨q, s - s⟩ : Decimal)) = _
    unfold chkDiv
    rw [if_neg hbz, if_neg hov]
    simp
  have hq : inI64 (au.tdiv bu * bu) := tdiv_mul_inI64 ha hb hbz
  have hmul : Decimal.mul ⟨au.tdiv bu, 0⟩ ⟨bu, s⟩ = some ⟨au.tdiv bu * bu, s⟩ := by
    unfold Decimal.mul chkMul
    rw [if_pos hq]
    show (match chkU32Add 0 s with
      | none => none
      | some sc => some (⟨au.tdiv bu * bu, sc⟩ : Decimal)) = _
    unfold chkU32Add
    rw [if_pos (by omega : 0 + s ≤ u32Max)]
    simp
  have hrem : Decimal.rem ⟨au, s⟩ ⟨bu, s⟩ = some ⟨au.tmod bu, s⟩ := by
    unfold Decimal.rem
    rw [if_neg (lt_irrefl s)]
    show (match chkRem au bu with
      | none => none
      | some r => some (⟨r, s⟩ : Decimal)) = _
    unfold chkRem
    rw [if_neg hbz, if_neg hov]
  have hsum : au.tdiv bu * bu + au.tmod bu = au := by
    have h2 := Int.tdiv_add_tmod au bu
    rw [mul_comm] at h2
    exact h2
  have hadd : Decimal.add ⟨au.tdiv bu * bu, s⟩ ⟨au.tmod bu, s⟩ = some ⟨au, s⟩ := by
    rw [@add_of_scale_eq ⟨au.tdiv bu * bu, s⟩ ⟨au.tmod bu, s⟩ rfl]
    show (match chkAdd (au.tdiv bu * bu) (au.tmod bu) with
      | none => none
      | some u => some (⟨u, s⟩ : Decimal)) = _
    unfold chkAdd
    rw [hsum, if_pos ha]
  rw [hdiv, Option.some_bind, hmul, Option.some_bind, hrem, Option.some_bind,
    hadd, Option.some_bind]
  exact adjust_scale_self ⟨au, s⟩

/-! ### The claims -/

/-- C1 (counterexample): at `d = (i64::MIN, 0)` the round trip fails: the
rendered string is `"-9223372036854775808"`, and reparsing it overflows the
`i64` magnitude accumulator (the positive magnitude `2^63` exceeds `i64::MAX`),
so the parse panics instead of returning `d`. -/
theorem C1_counterexample :
    ¬ (from_str (Decimal.render ⟨i64Min, 0⟩) = some (.ok ⟨i64Min, 0⟩)) := by
  decide

/-- C1 (amended): for every representable Decimal whose unscaled value is not
`i64::MIN` and whose scale is at most `u32::MAX - 3` (so that the reparse's
`u32` index counter cannot overflow on the zero-padded rendering), parsing the
rendered string yields a strictly equal Decimal: `parse(render(d)) == d`. -/
theorem C1_parse_render_round_trip (u : Int) (s : Nat)
    (h1 : i64Min < u) (h2 : u ≤ i64Max) (h3 : s + 3 ≤ u32Max) :
    from_str (Decimal.render ⟨u, s⟩) = some (.ok ⟨u, s⟩) :=
  from_str_render u s h1 h2 h3

theorem C1_witness :
    (i64Min < 150 ∧ (150 : Int) ≤ i64Max ∧ 2 + 3 ≤ u32Max) ∧
    from_str (Decimal.render ⟨150, 2⟩) = some (.ok ⟨150, 2⟩) :=
  ⟨by decide, C1_parse_render_round_trip 150 2 (by decide) (by decide) (by decide)⟩

/-- C2 (counterexample): at `dividend = (i64::MIN, 0)`, `divisor = (-1, 0)` the
division itself overflows (`i64::MIN / -1` panics), so the rebuilt expression
has no value at all, let alone one strictly equal to the dividend. -/
theorem C2_counterexample :
    ¬ (((Decimal.div ⟨i64Min, 0⟩ ⟨-1, 0⟩).bind fun q =>
      (Decimal.mul q ⟨-1, 0⟩).bind fun p =>
        (Decimal.rem ⟨i64Min, 0⟩ ⟨-1, 0⟩).bind fun r =>
          (Decimal.add p r).bind fun t =>
            t.adjust_scale 0) = some ⟨i64Min, 0⟩) := by
  decide

/-- C2 (amended): for representable dividend and divisor of the same scale `s`
with a nonzero divisor unscaled value, and excluding the single overflowing
pair `dividend.unscaled = i64::MIN, divisor.unscaled = -1`, the value
`((dividend / divisor) * divisor + (dividend % divisor)).adjust_scale(s)` is
strictly equal to the dividend. -/
theorem C2_div_mul_rem_rebuild (dividend divisor : Decimal) (s : Nat)
    (h1 : dividend.Repr) (h2 : divisor.Repr)
    (hs1 : dividend.scale = s) (hs2 : divisor.scale = s)
    (hz : divisor.unscaled ≠ 0)
    (hov : ¬(dividend.unscaled = i64Min ∧ divisor.unscaled = -1)) :
    ((Decimal.div dividend divisor).bind fun q =>
      (Decimal.mul q divisor).bind fun p =>
        (Decimal.rem dividend divisor).bind fun r =>
          (Decimal.add p r).bind fun t =>
            t.adjust_scale s) = some dividend := by
  obtain ⟨au, asc⟩ := dividend
  obtain ⟨bu, bsc⟩ := divisor
  have hs1' : asc = s := hs1
  have hs2' : bsc = s := hs2
  subst hs1'
  subst hs2'
  exact div_rem_rebuild h1.1 h2.1 h2.2 hz hov

theorem C2_witness :
    ((⟨5, 0⟩ : Decimal).Repr ∧ (⟨2, 0⟩ : Decimal).Repr ∧
      (2 : Int) ≠ 0 ∧ ¬((5 : Int) = i64Min ∧ (2 : Int) = -1)) ∧
    ((Decimal.div ⟨5, 0⟩ ⟨2, 0⟩).bind fun q =>
      (Decimal.mul q ⟨2, 0⟩).bind fun p =>
        (Decimal.rem ⟨5, 0⟩ ⟨2, 0⟩).bind fun r =>
          (Decimal.add p r).bind fun t =>
            t.adjust_scale 0) = some ⟨5, 0⟩ :=
  ⟨by decide, C2_div_mul_rem_rebuild ⟨5, 0⟩ ⟨2, 0⟩ 0 (by decide) (by decide)
    rfl rfl (by decide) (by decide)⟩

/-- C3: every arithmetic step is exactly overflow-checked. The `upscale` loop
returns the exact product `n * 10^k` precisely when that product is in `i64`
range and panics (`none`) precisely when it is not — never a wrapped value;
`Mul` returns the exact unscaled product and scale sum exactly when both fit
their machine types; `Add`/`Sub` on aligned operands return the exact sum or
difference exactly when it fits an `i64`. -/
theorem C3_overflow_exactly_checked :
    (∀ (n : Int) (k : Nat), inI64 n →
      ((inI64 (n * 10 ^ k) → upscale n k = some (n * 10 ^ k)) ∧
       (¬ inI64 (n * 10 ^ k) → upscale n k = none))) ∧
    (∀ a b : Decimal, Decimal.mul a b =
      if inI64 (a.unscaled * b.unscaled) ∧ a.scale + b.scale ≤ u32Max
      then some ⟨a.unscaled * b.unscaled, a.scale + b.scale⟩ else none) ∧
    (∀ a b : Decimal, a.scale = b.scale →
      Decimal.add a b = if inI64 (a.unscaled + b.unscaled)
        then some ⟨a.unscaled + b.unscaled, a.scale⟩ else none) ∧
    (∀ a b : Decimal, a.scale = b.scale →
      Decimal.sub a b = if inI64 (a.unscaled - b.unscaled)
        then some ⟨a.unscaled - b.unscaled, a.scale⟩ else none) := by
  refine ⟨fun n k hn => upscale_char hn k, ?_, ?_, ?_⟩
  · intro a b
    unfold Decimal.mul chkMul
    by_cases hm : inI64 (a.unscaled * b.unscaled)
    · rw [if_pos hm]
      show (match chkU32Add a.scale b.scale with
        | none => none
        | some s => some (⟨a.unscaled * b.unscaled, s⟩ : Decimal)) = _
      unfold chkU32Add
      by_cases hsc : a.scale + b.scale ≤ u32Max
      · rw [if_pos hsc, if_pos ⟨hm, hsc⟩]
      · rw [if_neg hsc, if_neg (by tauto)]
    · rw [if_neg hm, if_neg (by tauto)]
  · intro a b h
    rw [add_of_scale_eq h]
    unfold chkAdd
    by_cases hm : inI64 (a.unscaled + b.unscaled)
    · rw [if_pos hm, if_pos hm]
    · rw [if_neg hm, if_neg hm]
  · intro a b h
    rw [sub_of_scale_eq h]
    unfold chkSub
    by_cases hm : inI64 (a.unscaled - b.unscaled)
    · rw [if_pos hm, if_pos hm]
    · rw [if_neg hm, if_neg hm]

theorem C3_witness :
    upscale i64Max 1 = none ∧
    Decimal.mul ⟨3, 1⟩ ⟨5, 2⟩ = some ⟨15, 3⟩ ∧
    Decimal.add ⟨9, 1⟩ ⟨10, 1⟩ = some ⟨19, 1⟩ := by
  refine ⟨(C3_overflow_exactly_checked.1 i64Max 1 (by decide)).2 (by decide), ?_, ?_⟩
  · rw [C3_overflow_exactly_checked.2.1 ⟨3, 1⟩ ⟨5, 2⟩]
    decide
  · rw [C3_overflow_exactly_checked.2.2.1 ⟨9, 1⟩ ⟨10, 1⟩ rfl]
    decide

/-- C4 (counterexample): at `d = (i64::MAX, 3)` and target scale `4` the
upscale multiplication overflows and the operation panics; it does not return
`(i64::MAX * 10, 4)` as the unqualified claim asserts (the crate's own test
`adjust_scale_to_overflow_unscaled_value_panics` pins this panic). -/
theorem C4_counterexample :
    Decimal.adjust_scale ⟨i64Max, 3⟩ 4 = none ∧
    ¬ (Decimal.adjust_scale ⟨i64Max, 3⟩ 4 = some ⟨i64Max * 10, 4⟩) := by
  decide

/-- C4 (amended): `adjust_scale` returns `d` unchanged at equal scale; at a
smaller target scale it truncates toward zero, dividing the unscaled value by
`10^(d.scale - t)`; at a larger target scale it multiplies the unscaled value
by `10^(t - d.scale)` provided that product is representable in an `i64`, and
panics (returns no value) when it is not. -/
theorem C4_adjust_scale_spec (d : Decimal) (t : Nat) (hd : inI64 d.unscaled) :
    (d.scale = t → d.adjust_scale t = some d) ∧
    (t < d.scale → d.adjust_scale t = some ⟨d.unscaled.tdiv (10 ^ (d.scale - t)), t⟩) ∧
    (d.scale < t → inI64 (d.unscaled * 10 ^ (t - d.scale)) →
      d.adjust_scale t = some ⟨d.unscaled * 10 ^ (t - d.scale), t⟩) ∧
    (d.scale < t → ¬ inI64 (d.unscaled * 10 ^ (t - d.scale)) →
      d.adjust_scale t = none) := by
  refine ⟨?_, ?_, ?_, ?_⟩
  · intro h
    subst h
    exact adjust_scale_self d
  · intro h
    rw [adjust_scale_of_gt h, downscale_eq]
  · intro h hin
    rw [adjust_scale_of_lt h, (upscale_char hd (t - d.scale)).1 hin]
  · intro h hout
    rw [adjust_scale_of_lt h, (upscale_char hd (t - d.scale)).2 hout]

theorem C4_witness :
    Decimal.adjust_scale ⟨125, 2⟩ 1 = some ⟨(125 : Int).tdiv (10 ^ (2 - 1)), 1⟩ ∧
    ((125 : Int).tdiv (10 ^ (2 - 1)) = 12) :=
  ⟨(C4_adjust_scale_spec ⟨125, 2⟩ 1 (by decide)).2.1 (by decide), by decide⟩

/-- C5: whenever `a + b` (resp. `a - b`) returns a value, its scale is
`max(a.scale, b.scale)` and its unscaled value is the sum (resp. difference)
of the operands' unscaled values after each is aligned to that common scale. -/
theorem C5_add_sub_alignment (a b : Decimal) :
    (∀ r, Decimal.add a b = some r →
      r.scale = max a.scale b.scale ∧
      r.unscaled = a.unscaled * 10 ^ (max a.scale b.scale - a.scale)
        + b.unscaled * 10 ^ (max a.scale b.scale - b.scale)) ∧
    (∀ r, Decimal.sub a b = some r →
      r.scale = max a.scale b.scale ∧
      r.unscaled = a.unscaled * 10 ^ (max a.scale b.scale - a.scale)
        - b.unscaled * 10 ^ (max a.scale b.scale - b.scale)) :=
  ⟨fun _ h => add_spec h, fun _ h => sub_spec h⟩

theorem C5_witness :
    Decimal.add ⟨9, 1⟩ ⟨10, 2⟩ = some ⟨100, 2⟩ ∧
    ((⟨100, 2⟩ : Decimal).scale = max 1 2 ∧
      (⟨100, 2⟩ : Decimal).unscaled
        = 9 * 10 ^ (max 1 2 - 1) + 10 * 10 ^ (max 1 2 - 2)) := by
  have h : Decimal.add ⟨9, 1⟩ ⟨10, 2⟩ = some ⟨100, 2⟩ := by
    rw [@add_of_scale_lt ⟨9, 1⟩ ⟨10, 2⟩ (by norm_num)]
    rw [show Decimal.adjust_scale ⟨9, 1⟩ 2 = some ⟨90, 2⟩ from by decide]
    show Decimal.add ⟨90, 2⟩ ⟨10, 2⟩ = _
    rw [@add_of_scale_eq ⟨90, 2⟩ ⟨10, 2⟩ rfl]
    decide
  exact ⟨h, (C5_add_sub_alignment ⟨9, 1⟩ ⟨10, 2⟩).1 ⟨100, 2⟩ h⟩

/-- C6: `Div` and `Rem` align only by upscaling the dividend to the divisor's
scale (never downscaling): whenever they return, the quotient's scale is
`max(a.scale, b.scale) - b.scale` and the remainder's scale is
`max(a.scale, b.scale)` (not reduced by the divisor's scale), with the
unscaled values obtained by truncated division/remainder of the upscaled
dividend by the untouched divisor. -/
theorem C6_div_rem_scales (a b : Decimal) (hz : b.unscaled ≠ 0) :
    (∀ q, Decimal.div a b = some q →
      q.scale = max a.scale b.scale - b.scale ∧
      q.unscaled = (a.unscaled * 10 ^ (max a.scale b.scale - a.scale)).tdiv b.unscaled) ∧
    (∀ r, Decimal.rem a b = some r →
      r.scale = max a.scale b.scale ∧
      r.unscaled = (a.unscaled * 10 ^ (max a.scale b.scale - a.scale)).tmod b.unscaled) :=
  ⟨fun _ h => ⟨(div_spec h).1, (div_spec h).2.1⟩,
   fun _ h => ⟨(rem_spec h).1, (rem_spec h).2.1⟩⟩

theorem C6_witness :
    Decimal.div ⟨425, 2⟩ ⟨2, 0⟩ = some ⟨212, 2⟩ ∧
    Decimal.rem ⟨425, 2⟩ ⟨2, 0⟩ = some ⟨1, 2⟩ ∧
    ((⟨212, 2⟩ : Decimal).scale = max 2 0 - 0 ∧
      (⟨212, 2⟩ : Decimal).unscaled = ((425 : Int) * 10 ^ (max 2 0 - 2)).tdiv 2) ∧
    ((⟨1, 2⟩ : Decimal).scale = max 2 0 ∧
      (⟨1, 2⟩ : Decimal).unscaled = ((425 : Int) * 10 ^ (max 2 0 - 2)).tmod 2) := by
  have hd : Decimal.div ⟨425, 2⟩ ⟨2, 0⟩ = some ⟨212, 2⟩ := by decide
  have hr : Decimal.rem ⟨425, 2⟩ ⟨2, 0⟩ = some ⟨1, 2⟩ := by decide
  exact ⟨hd, hr,
    (C6_div_rem_scales ⟨425, 2⟩ ⟨2, 0⟩ (by decide)).1 ⟨212, 2⟩ hd,
    (C6_div_rem_scales ⟨425, 2⟩ ⟨2, 0⟩ (by decide)).2 ⟨1, 2⟩ hr⟩

/-- C7: `partial_cmp` never reports the operands incomparable — whenever it
returns, the result is `Some` of the ordering of the numeric values (the
cross-aligned products `a.unscaled * 10^b.scale` vs `b.unscaled * 10^a.scale`),
independent of scale; in particular `(1, 0)` and `(10, 1)` compare `Equal` even
though they are not equal under strict (field-wise) equality. -/
theorem C7_partial_cmp (a b : Decimal) :
    (∀ r, Decimal.partialCmp a b = some r →
      r = some (i64cmp (a.unscaled * 10 ^ b.scale) (b.unscaled * 10 ^ a.scale))) ∧
    Decimal.partialCmp ⟨1, 0⟩ ⟨10, 1⟩ = some (some .eq) ∧
    (⟨1, 0⟩ : Decimal) ≠ ⟨10, 1⟩ :=
  ⟨fun _ h => partialCmp_some h, by decide, by decide⟩

theorem C7_witness :
    (some Ordering.eq : Option Ordering)
      = some (i64cmp ((1 : Int) * 10 ^ 1) ((10 : Int) * 10 ^ 0)) :=
  (C7_partial_cmp ⟨1, 0⟩ ⟨10, 1⟩).1 (some .eq) (by decide)

/-- C8 (counterexample): `"1."` — digits followed by a trailing `'.'` — parses
successfully, but to `(1, 0)`, not to the Decimal zero that the claim asserts
for all four degenerate shapes. -/
theorem C8_counterexample :
    from_str ['1', '.'] = some (.ok ⟨1, 0⟩) ∧ (⟨1, 0⟩ : Decimal) ≠ ⟨0, 0⟩ := by
  decide

/-- C8 (amended): parsing accepts each degenerate input: a digit string with a
trailing `'.'` parses successfully to (digit value, scale 0) — zero only when
the digits are zero — while the bare `"."`, `"-"` and `"-."` all parse to the
Decimal zero with scale 0. -/
theorem C8_degenerate_inputs :
    (∀ ds : List Char, (∀ c ∈ ds, c.isDigit = true) →
      digsVal ds ≤ i64Max → ds.length + 1 ≤ u32Max →
      from_str (ds ++ ['.']) = some (.ok ⟨digsVal ds, 0⟩)) ∧
    from_str ['.'] = some (.ok ⟨0, 0⟩) ∧
    from_str ['-'] = some (.ok ⟨0, 0⟩) ∧
    from_str ['-', '.'] = some (.ok ⟨0, 0⟩) := by
  refine ⟨?_, by decide, by decide, by decide⟩
  intro ds hd hval hlen
  have hrun := parseLoop_digits ds initSt hd (le_refl 0)
    (by show (0:Int) * 10 ^ ds.length + digsVal ds ≤ i64Max; simpa using hval)
    (by show 0 + ds.length ≤ u32Max; omega)
    (by show 0 + (if false then ds.length else 0) ≤ u32Max; simp)
  have hfull : parseLoop initSt (ds ++ ['.'])
      = some (.ok ⟨digsVal ds, 0, ds.length + 1, false, true⟩) := by
    rw [parseLoop_append, hrun]
    show parseLoop ⟨0 * 10 ^ ds.length + digsVal ds,
      0 + (if false then ds.length else 0), 0 + ds.length, false, false⟩ ['.'] = _
    rw [show parseLoop (⟨0 * 10 ^ ds.length + digsVal ds,
        0 + (if false then ds.length else 0), 0 + ds.length, false, false⟩ : ParseSt)
        ['.'] =
      (match pstep ⟨0 * 10 ^ ds.length + digsVal ds,
        0 + (if false then ds.length else 0), 0 + ds.length, false, false⟩ '.' with
      | none => none
      | some (Except.error e) => some (Except.error e)
      | some (Except.ok st') => parseLoop st' []) from rfl]
    rw [pstep_dot (by show 0 + ds.length + 1 ≤ u32Max; omega)]
    simp [parseLoop]
  exact from_str_of_run_pos hfull (by omega)

theorem C8_witness :
    ((∀ c ∈ ['1'], c.isDigit = true) ∧ digsVal ['1'] ≤ i64Max ∧
      (['1'] : List Char).length + 1 ≤ u32Max) ∧
    from_str (['1'] ++ ['.']) = some (.ok ⟨digsVal ['1'], 0⟩) :=
  ⟨by decide, C8_degenerate_inputs.1 ['1'] (by decide) (by decide) (by decide)⟩

/-- C9 (counterexample): the string `"9223372036854775808g"` contains the
invalid character `'g'`, but the parse does not return an `InvalidDigit` error:
the magnitude accumulation overflows (panics) on the final `'8'`, before the
invalid character is reached. -/
theorem C9_counterexample :
    from_str ['9', '2', '2', '3', '3', '7', '2', '0', '3', '6', '8', '5', '4',
      '7', '7', '5', '8', '0', '8', 'g'] = none ∧
    ('g'.isDigit = false ∧ 'g' ≠ '-' ∧ 'g' ≠ '.') := by
  decide

/-- C9 (amended): the empty string parses to the `Empty` error; and any string
whose prefix parses without panicking, followed by a character that is not a
digit, not `'.'` and not a first-position `'-'`, parses to the `InvalidDigit`
error value (rather than panicking) regardless of what follows. -/
theorem C9_error_paths :
    from_str [] = some (.error ⟨.Empty⟩) ∧
    (∀ (p : List Char) (c : Char) (rest : List Char) (st : ParseSt),
      parseLoop initSt p = some (.ok st) →
      c.isDigit = false → c ≠ '.' → (c = '-' → p ≠ []) →
      from_str (p ++ c :: rest) = some (.error ⟨.InvalidDigit⟩)) :=
  ⟨by decide, fun _ _ _ _ hp h1 h2 h3 => from_str_invalid hp h1 h2 h3⟩

theorem C9_witness :
    from_str (['2'] ++ 'g' :: []) = some (.error ⟨.InvalidDigit⟩) :=
  C9_error_paths.2 ['2'] 'g' [] ⟨2, 0, 1, false, false⟩ (by decide) (by decide)
    (by decide) (by decide)

/-- C10: Decimal addition is commutative under strict equality — in fact as
whole computations: for every pair of operands, `a + b` and `b + a` return the
same value, panic included, since both orders align the smaller-scale operand
to the same maximum scale and the aligned sums coincide. -/
theorem C10_add_comm (a b : Decimal) : Decimal.add a b = Decimal.add b a := by
  rcases Nat.lt_trichotomy a.scale b.scale with hlt | heq | hgt
  · rw [add_of_scale_lt hlt, add_of_scale_gt hlt]
    cases hadj : a.adjust_scale b.scale with
    | none => rfl
    | some s => exact add_comm_aligned (by rw [adjust_scale_scale hadj])
  · exact add_comm_aligned heq
  · rw [add_of_scale_gt hgt, add_of_scale_lt hgt]
    cases hadj : b.adjust_scale a.scale with
    | none => rfl
    | some o =>
      exact (add_comm_aligned (by rw [adjust_scale_scale hadj])).symm
